import Mathlib

/-!
Verification of the vmeeting streaming audio segmentation and speaker
attribution core, as a shallow embedding of the Python sources:

* `src/whisper/service.py` — `SpeakerManager.identify` (online speaker
  clustering with temporal bias), `run_diarize_first_pipeline` (batch
  scan / merge / transcribe) with its local helpers `get_embedding` and
  `assign_local`;
* `src/backend/app/websocket_routes.py` — `calculate_rms` and the
  VAD-triggered per-chunk session logic of `websocket_audio_endpoint`.

Embedding vectors are modelled as functions `Fin d → ℝ`; float
arithmetic is idealised as exact real (resp. rational) arithmetic, with
int16 wraparound modelled explicitly where NumPy performs 16-bit
integer arithmetic (`calculate_rms`).  External adapters (the sherpa
embedding extractor and the ASR engine) are modelled as oracle
parameters, `Option`-valued where the adapter can report "not ready".
-/

/-! ## Vectors: dot product, norm, normalisation (NumPy idioms) -/

/-- An embedding vector of dimension `d` (a NumPy float array). -/
def V (d : ℕ) : Type := Fin d → ℝ

/-- `np.dot(x, y)` for 1-d arrays. -/
noncomputable def dotV {d : ℕ} (x y : V d) : ℝ := ∑ i, x i * y i

/-- `np.linalg.norm(x)` — the Euclidean norm. -/
noncomputable def normV {d : ℕ} (x : V d) : ℝ := Real.sqrt (dotV x x)

/-- The zero vector. -/
def zeroV (d : ℕ) : V d := fun _ => 0

/-- The guarded normalisation idiom of the source
(`if norm > 0: v /= norm`): divide by the norm when it is positive,
otherwise leave the vector unchanged. -/
noncomputable def normalizeV {d : ℕ} (x : V d) : V d :=
  if 0 < normV x then fun i => x i / normV x else x

theorem dotV_self_nonneg {d : ℕ} (x : V d) : 0 ≤ dotV x x :=
  Finset.sum_nonneg fun i _ => mul_self_nonneg (x i)

theorem dotV_comm {d : ℕ} (x y : V d) : dotV x y = dotV y x :=
  Finset.sum_congr rfl fun i _ => mul_comm (x i) (y i)

theorem dotV_zero_right {d : ℕ} (x : V d) : dotV x (zeroV d) = 0 := by
  simp [dotV, zeroV]

theorem dotV_self_eq_zero {d : ℕ} {x : V d} (h : dotV x x = 0) : x = zeroV d := by
  funext i
  have hall := (Finset.sum_eq_zero_iff_of_nonneg
    (fun j _ => mul_self_nonneg (x j))).mp h
  have hx : x i * x i = 0 := hall i (Finset.mem_univ i)
  exact mul_self_eq_zero.mp hx

theorem normV_nonneg {d : ℕ} (x : V d) : 0 ≤ normV x := Real.sqrt_nonneg _

theorem normV_eq_zero {d : ℕ} {x : V d} (h : normV x = 0) : x = zeroV d := by
  have h0 : dotV x x ≤ 0 := Real.sqrt_eq_zero'.mp h
  exact dotV_self_eq_zero (le_antisymm h0 (dotV_self_nonneg x))

theorem normV_zero {d : ℕ} : normV (zeroV d) = 0 := by
  simp [normV, dotV, zeroV]

theorem dotV_self_pos {d : ℕ} {x : V d} (h : 0 < normV x) : 0 < dotV x x :=
  Real.sqrt_pos.mp h

/-- Scaling both arguments of the dot product by `1/c`. -/
theorem dotV_div_div {d : ℕ} (x : V d) (c : ℝ) :
    dotV (fun i => x i / c) (fun i => x i / c) = dotV x x / (c * c) := by
  unfold dotV
  rw [Finset.sum_div]
  exact Finset.sum_congr rfl fun i _ => div_mul_div_comm (x i) (c) (x i) (c)

/-- Scaling the right argument of the dot product by `1/c`. -/
theorem dotV_div_right {d : ℕ} (x y : V d) (c : ℝ) :
    dotV x (fun i => y i / c) = dotV x y / c := by
  unfold dotV
  rw [Finset.sum_div]
  exact Finset.sum_congr rfl fun i _ => by ring

/-- Bilinearity of the dot product over addition, squared form. -/
theorem dotV_add_self {d : ℕ} (x y : V d) :
    dotV (fun i => x i + y i) (fun i => x i + y i)
      = dotV x x + 2 * dotV x y + dotV y y := by
  unfold dotV
  rw [Finset.mul_sum, ← Finset.sum_add_distrib, ← Finset.sum_add_distrib]
  exact Finset.sum_congr rfl fun i _ => by ring

/-- A vector divided by its (positive) norm has norm `1`. -/
theorem normV_normalized {d : ℕ} {x : V d} (h : 0 < normV x) :
    normV (fun i => x i / normV x) = 1 := by
  have hd : 0 < dotV x x := dotV_self_pos h
  have hsq : normV x * normV x = dotV x x := Real.mul_self_sqrt (dotV_self_nonneg x)
  have hrfl : normV (fun i => x i / normV x)
      = Real.sqrt (dotV (fun i => x i / normV x) (fun i => x i / normV x)) := rfl
  rw [hrfl, dotV_div_div, hsq, div_self (ne_of_gt hd), Real.sqrt_one]

/-- Unit norm or the zero vector — the registry centroid invariant. -/
def unitOrZero {d : ℕ} (x : V d) : Prop := normV x = 1 ∨ x = zeroV d

/-- The guarded normalisation always produces a unit vector or zero. -/
theorem unitOrZero_normalizeV {d : ℕ} (x : V d) : unitOrZero (normalizeV x) := by
  unfold normalizeV
  by_cases h : 0 < normV x
  · rw [if_pos h]; exact Or.inl (normV_normalized h)
  · rw [if_neg h]
    have h0 : normV x = 0 := le_antisymm (not_lt.mp h) (normV_nonneg x)
    exact Or.inr (normV_eq_zero h0)

theorem unitOrZero_dotV_self {d : ℕ} {x : V d} (h : unitOrZero x) :
    dotV x x = 1 ∨ x = zeroV d := by
  rcases h with h | h
  · left
    have := Real.mul_self_sqrt (dotV_self_nonneg x)
    rw [show Real.sqrt (dotV x x) = normV x from rfl, h, mul_one] at this
    exact this.symm
  · right; exact h

/-! ## The best-score selection loop

Both `SpeakerManager.identify` and `assign_local` scan their registry
with the same pattern:

```
best_score = -1; best_id = -1
for <key>, <entry> in <registry>:
    score = ...
    if score > best_score: best_score, best_id = score, <key>
```

We model it once as `selectBest` and characterise it: the first
component is the running maximum, and on success the second component
tags the *earliest* entry attaining that maximum (strict `>` keeps the
first-registered entry on ties). -/

/-- The source's strict-inequality best-entry scan, starting from
`(-1, -1)`. -/
noncomputable def selectBest {α : Type} (f : α → ℝ) (g : α → ℤ) (l : List α) : ℝ × ℤ :=
  l.foldl (fun b x => if f x > b.1 then (f x, g x) else b) ((-1 : ℝ), (-1 : ℤ))

theorem selectBest_fold_fst {α : Type} (f : α → ℝ) (g : α → ℤ) (l : List α)
    (b : ℝ × ℤ) :
    (l.foldl (fun b x => if f x > b.1 then (f x, g x) else b) b).1
      = l.foldl (fun m x => max m (f x)) b.1 := by
  induction l generalizing b with
  | nil => rfl
  | cons x t ih =>
    simp only [List.foldl_cons]
    by_cases h : f x > b.1
    · rw [if_pos h, ih, max_eq_right (le_of_lt h)]
    · rw [if_neg h, ih, max_eq_left (not_lt.mp h)]

/-- The first component of `selectBest` is the maximum of all scores and
`-1`. -/
theorem selectBest_fst {α : Type} (f : α → ℝ) (g : α → ℤ) (l : List α) :
    (selectBest f g l).1 = l.foldl (fun m x => max m (f x)) (-1) :=
  selectBest_fold_fst f g l _

/-- Full characterisation of the scan from an arbitrary accumulator:
either nothing beat the accumulator, or the result is the score/tag of
the earliest element attaining the final (maximal) score. -/
theorem selectBest_fold_spec {α : Type} (f : α → ℝ) (g : α → ℤ) (l : List α)
    (b : ℝ × ℤ) :
    (l.foldl (fun b x => if f x > b.1 then (f x, g x) else b) b = b
        ∧ ∀ x ∈ l, f x ≤ b.1)
    ∨ (∃ i, ∃ hi : i < l.length,
        (l.foldl (fun b x => if f x > b.1 then (f x, g x) else b) b)
          = (f (l.get ⟨i, hi⟩), g (l.get ⟨i, hi⟩))
        ∧ b.1 < f (l.get ⟨i, hi⟩)
        ∧ ∀ j, (hj : j < l.length) → j < i →
            f (l.get ⟨j, hj⟩) < f (l.get ⟨i, hi⟩)) := by
  induction l generalizing b with
  | nil => exact Or.inl ⟨rfl, by intro x hx; cases hx⟩
  | cons x t ih =>
    simp only [List.foldl_cons]
    by_cases h : f x > b.1
    · rw [if_pos h]
      rcases ih (f x, g x) with ⟨heq, hle⟩ | ⟨i, hi, heq, hgt, hfirst⟩
      · refine Or.inr ⟨0, Nat.succ_pos _, ?_, ?_, ?_⟩
        · simpa using heq
        · simpa using h
        · intro j hj hj0; omega
      · refine Or.inr ⟨i + 1, Nat.succ_lt_succ hi, ?_, ?_, ?_⟩
        · simpa using heq
        · calc b.1 < f x := h
            _ < f (t.get ⟨i, hi⟩) := hgt
        · intro j hj hji
          cases j with
          | zero =>
            simpa using hgt
          | succ j' =>
            have hj' : j' < t.length := Nat.lt_of_succ_lt_succ hj
            have := hfirst j' hj' (Nat.lt_of_succ_lt_succ hji)
            simpa using this
    · rw [if_neg h]
      rcases ih b with ⟨heq, hle⟩ | ⟨i, hi, heq, hgt, hfirst⟩
      · refine Or.inl ⟨heq, ?_⟩
        intro y hy
        rcases List.mem_cons.mp hy with rfl | hy
        · exact not_lt.mp h
        · exact hle y hy
      · refine Or.inr ⟨i + 1, Nat.succ_lt_succ hi, ?_, ?_, ?_⟩
        · simpa using heq
        · simpa using hgt
        · intro j hj hji
          cases j with
          | zero =>
            have hxb : f x ≤ b.1 := not_lt.mp h
            calc f ((x :: t).get ⟨0, hj⟩) = f x := rfl
              _ ≤ b.1 := hxb
              _ < f (t.get ⟨i, hi⟩) := hgt
              _ = f ((x :: t).get ⟨i + 1, Nat.succ_lt_succ hi⟩) := rfl
          | succ j' =>
            have hj' : j' < t.length := Nat.lt_of_succ_lt_succ hj
            have := hfirst j' hj' (Nat.lt_of_succ_lt_succ hji)
            simpa using this

/-- `selectBest` characterisation from the initial `(-1, -1)`
accumulator. -/
theorem selectBest_spec {α : Type} (f : α → ℝ) (g : α → ℤ) (l : List α) :
    (selectBest f g l = ((-1 : ℝ), (-1 : ℤ)) ∧ ∀ x ∈ l, f x ≤ -1)
    ∨ (∃ i, ∃ hi : i < l.length,
        selectBest f g l = (f (l.get ⟨i, hi⟩), g (l.get ⟨i, hi⟩))
        ∧ (-1 : ℝ) < f (l.get ⟨i, hi⟩)
        ∧ ∀ j, (hj : j < l.length) → j < i →
            f (l.get ⟨j, hj⟩) < f (l.get ⟨i, hi⟩)) :=
  selectBest_fold_spec f g l _

/-! ## The live speaker clustering engine — `SpeakerManager.identify`

`src/whisper/service.py` lines 288–401.  The registry is a Python dict
`pid -> {'centroid', 'count', 'last_seen'}` with integer keys assigned
sequentially from `next_id`; dict iteration order is insertion order, so
we model it as a list of key/entry pairs in insertion order.  The
embedding extractor (sherpa-onnx) is external: a call is modelled by its
observable result, an `Option (V d)` (`none` when `is_ready` fails). -/

/-- One registry entry: `{'centroid': ..., 'count': ..., 'last_seen': ...}`. -/
structure RegEntry (d : ℕ) where
  centroid : V d
  count : ℕ
  last_seen : ℝ

/-- The mutable state of a `SpeakerManager`. -/
structure SMState (d : ℕ) where
  threshold : ℝ
  registry : List (ℕ × RegEntry d)
  next_id : ℕ
  loaded : Bool
  last_speaker_id : ℤ
  last_speaker_time : ℝ

/-- `SpeakerManager.__init__` (threshold default `0.45`), with the
loaded flag as a parameter (set by `load()`). -/
def initSM (d : ℕ) (loaded : Bool) : SMState d :=
  ⟨0.45, [], 0, loaded, -1, 0⟩

/-- `f"SPEAKER_{n:02d}"` for a nonnegative id. -/
def speakerLabel (n : ℕ) : String :=
  "SPEAKER_" ++ (if n < 10 then "0" ++ toString n else toString n)

/-- The per-entry score: cosine similarity plus the `+0.1` temporal
bonus when the key equals `last_speaker_id` and the last call was less
than `3.0` s ago. -/
noncomputable def scoreOf {d : ℕ} (s : SMState d) (now : ℝ) (emb : V d)
    (p : ℕ × RegEntry d) : ℝ :=
  dotV emb p.2.centroid
    + if (p.1 : ℤ) = s.last_speaker_id ∧ now - s.last_speaker_time < 3 then 0.1 else 0

/-- The best-score scan of `identify` over the registry. -/
noncomputable def bestPair {d : ℕ} (s : SMState d) (now : ℝ) (emb : V d) : ℝ × ℤ :=
  selectBest (scoreOf s now emb) (fun p => (p.1 : ℤ)) s.registry

/-- The exponential-moving-average centroid update of an accepted match
(`alpha = 0.95`), renormalised under the `new_norm > 0` guard. -/
noncomputable def emaUpdate {d : ℕ} (emb : V d) (now : ℝ) (e : RegEntry d) :
    RegEntry d :=
  let nc : V d := fun i => 0.95 * e.centroid i + 0.05 * emb i
  let ncn : V d := if 0 < normV nc then fun i => nc i / normV nc else nc
  ⟨ncn, e.count + 1, now⟩

/-- Assignment to a dict key that is already present: rewrite the entry
at that key, leave everything else in place. -/
def updateKey {d : ℕ} (l : List (ℕ × RegEntry d)) (k : ℤ)
    (f : RegEntry d → RegEntry d) : List (ℕ × RegEntry d) :=
  l.map fun p => if (p.1 : ℤ) = k then (p.1, f p.2) else p

/-- `SpeakerManager.identify(audio_samples)` (service.py 338–401),
with the extractor call abstracted to its result `extOut`.  Returns the
speaker label (or `None`) and the successor state.  Note the source
*reads* `last_speaker_id` / `last_speaker_time` in the bias term but
never writes them. -/
noncomputable def identify {d : ℕ} (s : SMState d) (nSamples : ℕ)
    (extOut : Option (V d)) (now : ℝ) : Option String × SMState d :=
  if s.loaded = false ∨ nSamples < 8000 then (none, s)
  else
    match extOut with
    | none => (none, s)
    | some raw =>
      let emb := normalizeV raw
      let bp := bestPair s now emb
      if bp.1 > s.threshold then
        (some (speakerLabel bp.2.toNat),
         { s with registry := updateKey s.registry bp.2 (emaUpdate emb now) })
      else
        (some (speakerLabel s.next_id),
         { s with registry := s.registry ++ [(s.next_id, ⟨emb, 1, now⟩)],
                  next_id := s.next_id + 1 })

/-- One observable call to `identify`. -/
structure LiveCall (d : ℕ) where
  nSamples : ℕ
  extOut : Option (V d)
  now : ℝ

/-- A sequence of `identify` calls from a fresh manager. -/
noncomputable def liveRun (d : ℕ) (loaded : Bool) (calls : List (LiveCall d)) :
    SMState d :=
  calls.foldl (fun s c => (identify s c.nSamples c.extOut c.now).2) (initSM d loaded)

/-! ## The batch-local registry — `assign_local` in
`run_diarize_first_pipeline` (service.py 560–580).

`session_speakers` is a plain list indexed positionally
(`session_speakers[best_idx]`); the cumulative-mean update divides
`vector_sum` by its norm *without* a zero guard. -/

/-- One local speaker: `{'id', 'centroid', 'vector_sum', 'count'}`. -/
structure SpkLocal (d : ℕ) where
  id : ℕ
  centroid : V d
  vector_sum : V d
  count : ℕ

/-- The nearest-centroid scan of `assign_local` (plain cosine, no bias),
over the positional enumeration of the local registry. -/
noncomputable def bestSimPair {d : ℕ} (l : List (SpkLocal d)) (emb : V d) : ℝ × ℤ :=
  selectBest (fun p => dotV emb p.2.centroid) (fun p => (p.1 : ℤ)) l.enum

/-- `assign_local(emb, threshold=0.30)`: returns the assigned local id
and the updated registry.  An accepted match adds `emb` into
`vector_sum` and recomputes `centroid = vector_sum / ||vector_sum||`
(unguarded division — `x / 0 = 0` in this model, NaN in NumPy);
otherwise a new local speaker is appended. -/
noncomputable def assignLocal {d : ℕ} (l : List (SpkLocal d)) (emb : V d) :
    ℕ × List (SpkLocal d) :=
  let bp := bestSimPair l emb
  if bp.1 > 0.30 then
    (bp.2.toNat,
     l.enum.map fun p =>
       if p.1 = bp.2.toNat then
         let vs : V d := fun i => p.2.vector_sum i + emb i
         ⟨p.2.id, fun i => vs i / normV vs, vs, p.2.count + 1⟩
       else p.2)
  else
    (l.length, l ++ [⟨l.length, emb, emb, 1⟩])

/-- The division `vector_sum / np.linalg.norm(vector_sum)` of an
accepted `assign_local` update divides by zero. -/
def assignDivZero {d : ℕ} (l : List (SpkLocal d)) (emb : V d) : Prop :=
  (bestSimPair l emb).1 > 0.30 ∧
    match l.get? (bestSimPair l emb).2.toNat with
    | some sp => normV (fun i => sp.vector_sum i + emb i) = 0
    | none => False

/-- A sequence of voiced-window assignments with the raw extractor
outputs `raws`, each normalised by `get_embedding` before
`assign_local`, starting from an empty local registry. -/
noncomputable def batchRun (d : ℕ) (raws : List (V d)) : List (SpkLocal d) :=
  raws.foldl (fun l raw => (assignLocal l (normalizeV raw)).2) []

/-! ## Centroid-norm invariants -/

/-- An EMA-updated centroid is unit-norm or zero: the blend is
renormalised under the `new_norm > 0` guard, and a zero norm forces the
zero vector. -/
theorem emaUpdate_unitOrZero {d : ℕ} (emb : V d) (now : ℝ) (e : RegEntry d) :
    unitOrZero (emaUpdate emb now e).centroid := by
  unfold emaUpdate
  set nc : V d := fun i => 0.95 * e.centroid i + 0.05 * emb i with hnc
  by_cases h : 0 < normV nc
  · simp only [if_pos h]
    exact Or.inl (normV_normalized h)
  · simp only [if_neg h]
    have h0 : normV nc = 0 := le_antisymm (not_lt.mp h) (normV_nonneg nc)
    exact Or.inr (normV_eq_zero h0)

/-- A single `identify` call preserves the centroid invariant for every
registry entry (in fact every entry it writes is unit-or-zero outright). -/
theorem identify_preserves_unitOrZero {d : ℕ} (s : SMState d) (nSamples : ℕ)
    (extOut : Option (V d)) (now : ℝ)
    (h : ∀ p ∈ s.registry, unitOrZero p.2.centroid) :
    ∀ p ∈ (identify s nSamples extOut now).2.registry, unitOrZero p.2.centroid := by
  unfold identify
  by_cases h1 : s.loaded = false ∨ nSamples < 8000
  · simpa only [if_pos h1] using h
  · rw [if_neg h1]
    cases extOut with
    | none => exact h
    | some raw =>
      by_cases h2 : (bestPair s now (normalizeV raw)).1 > s.threshold
      · simp only [if_pos h2]
        intro p hp
        rcases List.mem_map.mp hp with ⟨q, hq, hfq⟩
        by_cases hk : ((q.1 : ℤ)) = (bestPair s now (normalizeV raw)).2
        · rw [if_pos hk] at hfq
          rw [← hfq]
          exact emaUpdate_unitOrZero _ _ _
        · rw [if_neg hk] at hfq
          rw [← hfq]
          exact h q hq
      · simp only [if_neg h2]
        intro p hp
        rcases List.mem_append.mp hp with hp | hp
        · exact h p hp
        · rcases List.mem_singleton.mp hp with rfl
          exact unitOrZero_normalizeV raw

/-- Fold-invariant preservation, with the invariant passed positionally. -/
theorem foldl_preserves {α β : Type _} (P : β → Prop) (op : β → α → β)
    (l : List α) (b : β) (hb : P b) (hstep : ∀ s, P s → ∀ a ∈ l, P (op s a)) :
    P (l.foldl op b) :=
  List.foldlRecOn l op b hb hstep

/-- After any sequence of `identify` calls from a fresh manager, every
registry centroid is unit-norm or the zero vector. -/
theorem liveRun_unitOrZero (d : ℕ) (loaded : Bool) (calls : List (LiveCall d)) :
    ∀ p ∈ (liveRun d loaded calls).registry, unitOrZero p.2.centroid := by
  unfold liveRun
  refine foldl_preserves (fun s => ∀ p ∈ s.registry, unitOrZero p.2.centroid)
    _ calls (initSM d loaded) ?_ ?_
  · intro p hp; cases hp
  · intro s hs c _
    exact identify_preserves_unitOrZero s c.nSamples c.extOut c.now hs

/-- The batch-local registry invariant: a local speaker either is fully
degenerate (zero running sum and zero centroid, created from a zero
embedding) or its centroid is the running sum divided by its positive
norm. -/
def InvB {d : ℕ} (sp : SpkLocal d) : Prop :=
  (sp.vector_sum = zeroV d ∧ sp.centroid = zeroV d)
  ∨ (0 < normV sp.vector_sum
     ∧ sp.centroid = fun i => sp.vector_sum i / normV sp.vector_sum)

theorem InvB_unitOrZero {d : ℕ} {sp : SpkLocal d} (h : InvB sp) :
    unitOrZero sp.centroid := by
  rcases h with ⟨_, hc⟩ | ⟨hpos, hc⟩
  · exact Or.inr hc
  · rw [hc]; exact Or.inl (normV_normalized hpos)

/-- Membership in `l.enum` determines the entry by position. -/
theorem mem_enum_char {α : Type} {l : List α} {p : ℕ × α} (hp : p ∈ l.enum) :
    ∃ hi : p.1 < l.length, p.2 = l.get ⟨p.1, hi⟩ := by
  rcases List.mem_iff_getElem.mp hp with ⟨i, hi, hget⟩
  have hlen : i < l.length := by simpa using hi
  rw [List.getElem_enum] at hget
  refine ⟨?_, ?_⟩
  · rw [← hget]; exact hlen
  · have h1 : p.1 = i := by rw [← hget]
    have h2 : p.2 = l[i] := by rw [← hget]
    subst h1
    simpa using h2

theorem enum_length_eq {α : Type} (l : List α) : l.enum.length = l.length := by
  simp

theorem enum_get_eq {α : Type} (l : List α) (i : ℕ) (hi : i < l.length) :
    l.enum.get ⟨i, by simpa using hi⟩ = (i, l.get ⟨i, hi⟩) := by
  simp [List.getElem_enum]

/-- One `assign_local` call on a unit-or-zero embedding preserves the
local-registry invariant and never divides by zero. -/
theorem assignLocal_preserves {d : ℕ} {l : List (SpkLocal d)} {emb : V d}
    (he : unitOrZero emb) (h : ∀ sp ∈ l, InvB sp) :
    (∀ sp ∈ (assignLocal l emb).2, InvB sp) ∧ ¬ assignDivZero l emb := by
  by_cases hbp : (bestSimPair l emb).1 > 0.30
  · -- accepted match: locate the matched entry via the scan lemma
    rcases selectBest_spec (fun p => dotV emb p.2.centroid)
        (fun p => (p.1 : ℤ)) l.enum with ⟨heq, _⟩ | ⟨i, hi, heq, _, _⟩
    · exfalso
      have : (bestSimPair l emb).1 = -1 := by
        simp only [bestSimPair]; rw [heq]
      rw [this] at hbp; norm_num at hbp
    · have hi' : i < l.length := by simpa using hi
      have hget : l.enum.get ⟨i, hi⟩ = (i, l.get ⟨i, hi'⟩) := by
        simp [List.getElem_enum]
      rw [hget] at heq
      have heq' : bestSimPair l emb
          = (dotV emb (l.get ⟨i, hi'⟩).centroid, (i : ℤ)) := by
        simp only [bestSimPair]; rw [heq]
      have hsim : dotV emb (l.get ⟨i, hi'⟩).centroid > 0.30 := by
        rw [heq'] at hbp; exact hbp
      have hk : (bestSimPair l emb).2.toNat = i := by
        rw [heq']; exact Int.toNat_natCast i
      -- the matched entry is in the non-degenerate branch of the invariant
      rcases h _ (List.get_mem l i hi') with ⟨_, hc⟩ | ⟨hpos, hc⟩
      · exfalso
        rw [hc, dotV_zero_right] at hsim
        norm_num at hsim
      · have hdvs : dotV emb (l.get ⟨i, hi'⟩).vector_sum
            > 0.30 * normV (l.get ⟨i, hi'⟩).vector_sum := by
          rw [hc, dotV_div_right] at hsim
          exact (lt_div_iff₀ hpos).mp hsim
        have hdpos : 0 < dotV emb (l.get ⟨i, hi'⟩).vector_sum := by
          have : (0 : ℝ) < 0.30 * normV (l.get ⟨i, hi'⟩).vector_sum := by
            positivity
          linarith
        have hnewdot : 0 < dotV
            (fun j => (l.get ⟨i, hi'⟩).vector_sum j + emb j)
            (fun j => (l.get ⟨i, hi'⟩).vector_sum j + emb j) := by
          rw [dotV_add_self]
          have h1 : 0 < dotV (l.get ⟨i, hi'⟩).vector_sum
              (l.get ⟨i, hi'⟩).vector_sum := dotV_self_pos hpos
          have h2 : 0 < dotV (l.get ⟨i, hi'⟩).vector_sum emb := by
            rw [dotV_comm]; exact hdpos
          have h3 : 0 ≤ dotV emb emb := dotV_self_nonneg emb
          linarith
        have hnewnorm : 0 < normV
            (fun j => (l.get ⟨i, hi'⟩).vector_sum j + emb j) :=
          Real.sqrt_pos.mpr hnewdot
        constructor
        · intro sp hsp
          simp only [assignLocal, if_pos hbp] at hsp
          rcases List.mem_map.mp hsp with ⟨q, hq, hfq⟩
          rcases mem_enum_char hq with ⟨hqi, hq2⟩
          by_cases hqk : q.1 = (bestSimPair l emb).2.toNat
          · rw [if_pos hqk] at hfq
            have hq1 : q.1 = i := by rw [hqk, hk]
            have hfin : (⟨q.1, hqi⟩ : Fin l.length) = ⟨i, hi'⟩ := by
              apply Fin.ext
              exact hq1
            have hq2' : q.2 = l.get ⟨i, hi'⟩ := by
              rw [hq2, hfin]
            rw [← hfq]
            refine Or.inr ⟨?_, ?_⟩
            · simp only [hq2']
              exact hnewnorm
            · simp only [hq2']
          · rw [if_neg hqk] at hfq
            rw [← hfq, hq2]
            exact h _ (List.get_mem l q.1 hqi)
        · intro hdz
          rcases hdz with ⟨_, hmatch⟩
          rw [hk, List.get?_eq_get hi'] at hmatch
          exact (ne_of_gt hnewnorm) hmatch
  · -- no match: a new local speaker is appended
    constructor
    · intro sp hsp
      simp only [assignLocal, if_neg hbp] at hsp
      rcases List.mem_append.mp hsp with hsp | hsp
      · exact h sp hsp
      · rcases List.mem_singleton.mp hsp with rfl
        rcases he with h1 | h1
        · refine Or.inr ⟨?_, ?_⟩
          · show (0 : ℝ) < normV emb
            rw [h1]; norm_num
          · show emb = fun j => emb j / normV emb
            rw [h1]
            funext j
            rw [div_one]
        · exact Or.inl ⟨h1, h1⟩
    · intro hdz
      exact hbp hdz.1

/-- After any sequence of `assign_local` calls on normalised extractor
outputs, every local centroid satisfies the registry invariant. -/
theorem batchRun_InvB (d : ℕ) (raws : List (V d)) :
    ∀ sp ∈ batchRun d raws, InvB sp := by
  unfold batchRun
  refine foldl_preserves (fun l => ∀ sp ∈ l, InvB sp) _ raws [] ?_ ?_
  · intro sp hsp; cases hsp
  · intro l hl raw _
    exact (assignLocal_preserves (unitOrZero_normalizeV raw) hl).1

/-! ## The diarize-first batch pipeline (service.py 513–652)

Modelled from the preprocessed audio array onward: the scan walks
`range(0, total_len - window_samples, step_samples)` with a 2.0 s
window and 1.0 s step at 16 kHz, closing segments on sub-threshold
energy, the merge coalesces the raw timeline, and transcription is an
oracle.  Times are reals `i / 16000`. -/

/-- `np.mean(chunk**2)` for a float array. -/
noncomputable def meanSq (l : List ℝ) : ℝ := (l.map fun x => x * x).sum / l.length

/-- `audio[i : i + window_samples]` with `window_samples = 32000`. -/
def windowAt (audio : List ℝ) (i : ℕ) : List ℝ := (audio.drop i).take 32000

/-- The window start offsets
`range(0, total_len - window_samples, step_samples)`; empty whenever
the buffer is no longer than one window. -/
def scanIndices (total_len : ℕ) : List ℕ :=
  List.range' 0 ((total_len - 32000 + 15999) / 16000) 16000

/-- The loop state of the scan phase. -/
structure ScanState (d : ℕ) where
  timeline : List (ℝ × ℝ × ℤ)
  current_spk : ℤ
  current_start : ℝ
  speakers : List (SpkLocal d)

/-- One iteration of the scan loop (service.py 583–602): a window below
the `0.001` mean-square silence floor closes any open segment; a voiced
window is embedded (`get_embedding` normalises the extractor output),
assigned locally, and extends or switches the running segment. -/
noncomputable def scanStep (d : ℕ) (oracle : List ℝ → Option (V d))
    (audio : List ℝ) (st : ScanState d) (i : ℕ) : ScanState d :=
  let chunk := windowAt audio i
  if meanSq chunk < 0.001 then
    if st.current_spk ≠ -1 then
      ⟨st.timeline ++ [(st.current_start, (i : ℝ) / 16000 + 2, st.current_spk)],
       -1, st.current_start, st.speakers⟩
    else st
  else
    match oracle chunk with
    | none => st
    | some raw =>
      let emb := normalizeV raw
      let r := assignLocal st.speakers emb
      let ts : ℝ := (i : ℝ) / 16000
      if (r.1 : ℤ) ≠ st.current_spk then
        ⟨(if st.current_spk ≠ -1
            then st.timeline ++ [(st.current_start, ts, st.current_spk)]
            else st.timeline),
         (r.1 : ℤ), ts, r.2⟩
      else
        ⟨st.timeline, st.current_spk, st.current_start, r.2⟩

/-- The full scan from a fresh local registry. -/
noncomputable def runScan (d : ℕ) (oracle : List ℝ → Option (V d))
    (audio : List ℝ) : ScanState d :=
  (scanIndices audio.length).foldl (scanStep d oracle audio) ⟨[], -1, 0, []⟩

/-- Merge-loop body (service.py 611–624): coalesce a following entry of
the same speaker when the gap is strictly below `2.0` s; on a break,
keep the closed run only when its duration strictly exceeds `1.0` s. -/
def mergeGo {α : Type} [LinearOrderedField α] (cs ce : α) (cspk : ℤ) :
    List (α × α × ℤ) → List (α × α × ℤ)
  | [] => if 1 < ce - cs then [(cs, ce, cspk)] else []
  | (s, e, spk) :: rest =>
    if spk = cspk ∧ s - ce < 2 then mergeGo cs (max ce e) cspk rest
    else (if 1 < ce - cs then [(cs, ce, cspk)] else []) ++ mergeGo s e spk rest

/-- The merge stage (service.py 607–624). -/
def mergeTimeline {α : Type} [LinearOrderedField α] :
    List (α × α × ℤ) → List (α × α × ℤ)
  | [] => []
  | (s, e, spk) :: rest => mergeGo s e spk rest

/-- Python `int()` on a float: truncation toward zero. -/
noncomputable def truncR (x : ℝ) : ℤ := if 0 ≤ x then ⌊x⌋ else ⌈x⌉

/-- One output segment of the batch pipeline. -/
structure SegOut where
  start : ℝ
  stop : ℝ
  speaker : String
  text : String

/-- Transcription of one merged segment (service.py 630–648): extract
the audio with `0.1` s symmetric padding clamped to the buffer (all
reachable segment times are nonnegative, so the clamped indices are
natural numbers) and call the ASR oracle. -/
noncomputable def transcribeSeg (asr : List ℝ → String) (audio : List ℝ)
    (seg : ℝ × ℝ × ℤ) : SegOut :=
  let sIdx := (max 0 (truncR ((seg.1 - 0.1) * 16000))).toNat
  let eIdx := min audio.length (truncR ((seg.2.1 + 0.1) * 16000)).toNat
  let segAudio := (audio.take eIdx).drop sIdx
  ⟨seg.1, seg.2.1, "Speaker " ++ toString (seg.2.2 + 1), asr segAudio⟩

/-- `run_diarize_first_pipeline` from the preprocessed audio array on:
scan, close the trailing segment, merge, transcribe, and keep only
segments whose text has more than one character. -/
noncomputable def pipelineOut (d : ℕ) (oracle : List ℝ → Option (V d))
    (asr : List ℝ → String) (audio : List ℝ) : List SegOut :=
  let st := runScan d oracle audio
  let timeline :=
    if st.current_spk ≠ -1
    then st.timeline ++ [(st.current_start, (audio.length : ℝ) / 16000, st.current_spk)]
    else st.timeline
  ((mergeTimeline timeline).map (transcribeSeg asr audio)).filter
    fun o => 1 < o.text.length

/-! ## RMS and the VAD session step (websocket_routes.py)

`calculate_rms` reinterprets the chunk bytes as little-endian int16
samples with `np.frombuffer` and squares them *in int16 arithmetic*, so
the squares wrap modulo `2^16`; `np.mean` of the wrapped squares is
exact rational arithmetic here.  A nonpositive mean returns `0.0`
(the source comments this guard with "Prevent sqrt of negative"). -/

/-- Little-endian signed 16-bit decode of one sample. -/
def toInt16 (lo hi : ℕ) : ℤ := ((lo : ℤ) + 256 * hi + 32768) % 65536 - 32768

/-- `np.frombuffer(chunk, dtype=np.int16)` (a trailing odd byte would
raise in NumPy; byte strings of whole samples are decoded pairwise). -/
def bytesToSamples : List ℕ → List ℤ
  | lo :: hi :: rest => toInt16 lo hi :: bytesToSamples rest
  | _ => []

/-- Wraparound of int16 arithmetic. -/
def wrap16 (x : ℤ) : ℤ := (x + 32768) % 65536 - 32768

/-- `np.mean(arr**2)` where `arr` has dtype int16: each square wraps
modulo `2^16` before the mean is taken. -/
def meanSqWrapped (chunk : List ℕ) : ℚ :=
  let arr := bytesToSamples chunk
  if arr = [] then 0
  else (((arr.map fun s => wrap16 (s * s)).sum : ℤ) : ℚ) / arr.length

/-- `calculate_rms` (websocket_routes.py 144–152). -/
noncomputable def calculate_rms (chunk : List ℕ) : ℝ :=
  if chunk.length = 0 then 0
  else if bytesToSamples chunk = [] then 0
  else if meanSqWrapped chunk ≤ 0 then 0
  else Real.sqrt ((meanSqWrapped chunk : ℚ) : ℝ)

/-- The RMS formula of the specification: `sqrt(mean(sample^2))` over
the samples as exact integers. -/
noncomputable def rmsSpec (samples : List ℤ) : ℝ :=
  Real.sqrt ((((samples.map fun s => s * s).sum : ℤ) : ℝ) / samples.length)

/-- The session's chunk classification `rms < SILENCE_THRESHOLD` with
`SILENCE_THRESHOLD = 300`, expressed decidably over the rational mean
square (`sqrt m < 300  ↔  m < 90000` for positive `m`; the
nonpositive-mean and empty cases return RMS `0 < 300`). -/
def isSilentChunk (chunk : List ℕ) : Bool := decide (meanSqWrapped chunk < 90000)

/-- `isSilentChunk` agrees with the source's `rms < 300` test. -/
theorem isSilentChunk_correct (chunk : List ℕ) :
    isSilentChunk chunk = true ↔ calculate_rms chunk < 300 := by
  unfold isSilentChunk calculate_rms
  rw [decide_eq_true_iff]
  by_cases h0 : chunk.length = 0
  · rw [if_pos h0]
    have : meanSqWrapped chunk = 0 := by
      unfold meanSqWrapped
      have : bytesToSamples chunk = [] := by
        cases chunk with
        | nil => rfl
        | cons a t => simp at h0
      rw [this]
      rfl
    rw [this]
    norm_num
  · rw [if_neg h0]
    by_cases h1 : bytesToSamples chunk = []
    · rw [if_pos h1]
      have : meanSqWrapped chunk = 0 := by
        unfold meanSqWrapped
        rw [h1]
        rfl
      rw [this]
      norm_num
    · rw [if_neg h1]
      by_cases h2 : meanSqWrapped chunk ≤ 0
      · rw [if_pos h2]
        constructor
        · intro _; norm_num
        · intro _
          calc meanSqWrapped chunk ≤ 0 := h2
            _ < 90000 := by norm_num
      · rw [if_neg h2]
        have hpos : (0 : ℝ) < ((meanSqWrapped chunk : ℚ) : ℝ) := by
          exact_mod_cast lt_of_not_le h2
        rw [Real.sqrt_lt' (by norm_num : (0 : ℝ) < 300)]
        constructor
        · intro h
          have : ((meanSqWrapped chunk : ℚ) : ℝ) < ((90000 : ℚ) : ℝ) := by
            exact_mod_cast h
          calc ((meanSqWrapped chunk : ℚ) : ℝ) < ((90000 : ℚ) : ℝ) := this
            _ = (300 : ℝ) ^ 2 := by norm_num
        · intro h
          have : ((meanSqWrapped chunk : ℚ) : ℝ) < (90000 : ℝ) := by
            calc ((meanSqWrapped chunk : ℚ) : ℝ) < (300 : ℝ) ^ 2 := h
              _ = (90000 : ℝ) := by norm_num
          exact_mod_cast this

/-- The per-connection state of `websocket_audio_endpoint`. -/
structure WSState where
  final_buffer : List ℕ
  phrase_buffer : List ℕ
  silence_start : Option ℚ
  last_process : ℚ
  is_processing : Bool

/-- The silence-trigger trim (websocket_routes.py 249–255): keep the
trailing `1.0` s (= 32000 bytes) as overlap; a shorter buffer is kept
whole. -/
def trimOverlap (phrase : List ℕ) : List ℕ :=
  if 32000 < phrase.length then phrase.drop (phrase.length - 32000) else phrase

/-- The forced-trigger trim (websocket_routes.py 280–284): keep the
trailing `1.0` s; a shorter buffer is cleared. -/
def trimOverlapForce (phrase : List ℕ) : List ℕ :=
  if 32000 < phrase.length then phrase.drop (phrase.length - 32000) else []

/-- One audio-chunk iteration of the session loop
(websocket_routes.py 202–294): append to both buffers, classify
silence, evaluate the silence trigger, then — on the resulting state —
the independent forced trigger.  `phrase_duration` and
`time_since_last_process` are bound once before either trigger, exactly
as in the source.  The returned Bool reports whether a phrase
processing task was spawned on this chunk. -/
def wsStep (s : WSState) (chunk : List ℕ) (now : ℚ) : WSState × Bool :=
  let final := s.final_buffer ++ chunk
  let phrase := s.phrase_buffer ++ chunk
  let phrase_duration : ℚ := (phrase.length : ℚ) / 32000
  let time_since : ℚ := now - s.last_process
  let mid : WSState × Bool :=
    if isSilentChunk chunk then
      match s.silence_start with
      | none => (⟨final, phrase, some now, s.last_process, s.is_processing⟩, false)
      | some t0 =>
        if now - t0 > 2 ∧ phrase_duration > 2 ∧ time_since > 0.5
            ∧ s.is_processing = false then
          (⟨final, trimOverlap phrase, none, now, true⟩, true)
        else (⟨final, phrase, some t0, s.last_process, s.is_processing⟩, false)
    else (⟨final, phrase, none, s.last_process, s.is_processing⟩, false)
  if phrase_duration > 20 ∧ time_since > 0.5 ∧ mid.1.is_processing = false then
    (⟨mid.1.final_buffer, trimOverlapForce mid.1.phrase_buffer, none, now, true⟩, true)
  else mid

/-! ## Claim theorems -/

/-- Claim C5: every call to `identify` with fewer than 8000 samples
(0.5 s at 16 kHz) returns no identity and leaves the manager state —
in particular the registry and `next_id` — completely unchanged, so a
sub-minimum input never spawns a new speaker. -/
theorem min_duration_guard {d : ℕ} (s : SMState d) (nSamples : ℕ)
    (extOut : Option (V d)) (now : ℝ) (h : nSamples < 8000) :
    identify s nSamples extOut now = (none, s) := by
  unfold identify
  rw [if_pos (Or.inr h)]

/-- Witness for C5: a 4000-sample input on a loaded manager returns
`none` and does not change the state. -/
theorem min_duration_guard_witness :
    4000 < 8000
    ∧ identify (initSM 1 true) 4000 (some fun _ => 1) 0 = (none, initSM 1 true) :=
  ⟨by norm_num,
   min_duration_guard (initSM 1 true) 4000 (some fun _ => 1) 0 (by norm_num)⟩

/-- Unfolding `identify` on a valid call (loaded, length at least
8000, extractor produced an embedding): the call reduces to the
threshold decision on the best biased score. -/
theorem identify_valid_eq {d : ℕ} (s : SMState d) (nSamples : ℕ) (raw : V d)
    (now : ℝ) (hl : s.loaded = true) (hn : 8000 ≤ nSamples) :
    identify s nSamples (some raw) now
      = (if (bestPair s now (normalizeV raw)).1 > s.threshold then
           (some (speakerLabel (bestPair s now (normalizeV raw)).2.toNat),
            { s with
                registry :=
                  updateKey s.registry (bestPair s now (normalizeV raw)).2
                    (emaUpdate (normalizeV raw) now) })
         else
           (some (speakerLabel s.next_id),
            { s with registry := s.registry ++ [(s.next_id, ⟨normalizeV raw, 1, now⟩)],
                     next_id := s.next_id + 1 })) := by
  unfold identify
  rw [if_neg (by simp [hl]; omega)]

/-- Claim C9: `identify` returns `none` exactly when the model is not
loaded, the input is shorter than 8000 samples, or the extractor yields
no embedding; in every other case it returns `some (speakerLabel k)`
(the `"SPEAKER_nn"` form), and the first qualifying call on a fresh
manager (empty registry) returns `"SPEAKER_00"`. -/
theorem identify_totality {d : ℕ} (s : SMState d) (nSamples : ℕ)
    (extOut : Option (V d)) (now : ℝ) :
    ((identify s nSamples extOut now).1 = none
      ↔ (s.loaded = false ∨ nSamples < 8000 ∨ extOut = none))
    ∧ (s.loaded = true → 8000 ≤ nSamples → ∀ raw, extOut = some raw →
        ∃ k, (identify s nSamples extOut now).1 = some (speakerLabel k))
    ∧ (s = initSM d true → 8000 ≤ nSamples → ∀ raw, extOut = some raw →
        (identify s nSamples extOut now).1 = some "SPEAKER_00") := by
  refine ⟨?_, ?_, ?_⟩
  · by_cases h1 : s.loaded = false ∨ nSamples < 8000
    · unfold identify
      rw [if_pos h1]
      simp only [true_iff]
      rcases h1 with h1 | h1
      · exact Or.inl h1
      · exact Or.inr (Or.inl h1)
    · push_neg at h1
      have hl : s.loaded = true := by
        cases hb : s.loaded
        · exact absurd hb h1.1
        · rfl
      cases extOut with
      | none =>
        unfold identify
        rw [if_neg (by simp [hl]; omega)]
        simp
      | some raw =>
        rw [identify_valid_eq s nSamples raw now hl h1.2]
        by_cases h2 : (bestPair s now (normalizeV raw)).1 > s.threshold
        · simp [if_pos h2, hl, h1.2, not_lt.mpr h1.2]
        · simp [if_neg h2, hl, h1.2, not_lt.mpr h1.2]
  · intro hload hn raw hraw
    subst hraw
    rw [identify_valid_eq s nSamples raw now hload hn]
    by_cases h2 : (bestPair s now (normalizeV raw)).1 > s.threshold
    · rw [if_pos h2]
      exact ⟨_, rfl⟩
    · rw [if_neg h2]
      exact ⟨_, rfl⟩
  · intro hs hn raw hraw
    subst hs hraw
    rw [identify_valid_eq _ nSamples raw now rfl hn]
    have hbp : bestPair (initSM d true) now (normalizeV raw) = (-1, -1) := rfl
    rw [if_neg (by rw [hbp]; norm_num [initSM])]
    show some (speakerLabel (initSM d true).next_id) = some "SPEAKER_00"
    have hid : (initSM d true).next_id = 0 := rfl
    rw [hid]
    rfl

/-- Witness for C9: a qualifying first call on a fresh manager returns
`SPEAKER_00`. -/
theorem identify_totality_witness :
    8000 ≤ 16000
    ∧ (identify (initSM 1 true) 16000 (some fun _ => 1) 0).1 = some "SPEAKER_00" :=
  ⟨by norm_num,
   (identify_totality (initSM 1 true) 16000 (some fun _ => 1) 0).2.2 rfl
     (by norm_num) (fun _ => 1) rfl⟩

/-- Claim C3: after every sequence of identification calls, every
stored centroid is exactly unit-norm or the zero vector (hence within
`1e-6` of unit norm unless degenerate), in both the live registry
(EMA update in `identify`) and the batch-local registry (cumulative
mean in `assign_local`); and no batch update ever divides by zero
(the live-path divisions are syntactically guarded by `norm > 0`). -/
theorem centroid_norm_invariant (d : ℕ) (loaded : Bool)
    (calls : List (LiveCall d)) (raws : List (V d)) :
    (∀ p ∈ (liveRun d loaded calls).registry, unitOrZero p.2.centroid)
    ∧ (∀ sp ∈ batchRun d raws, unitOrZero sp.centroid)
    ∧ ∀ i, (hi : i < raws.length) →
        ¬ assignDivZero (batchRun d (raws.take i))
            (normalizeV (raws.get ⟨i, hi⟩)) := by
  refine ⟨liveRun_unitOrZero d loaded calls, ?_, ?_⟩
  · intro sp hsp
    exact InvB_unitOrZero (batchRun_InvB d raws sp hsp)
  · intro i hi
    exact (assignLocal_preserves (unitOrZero_normalizeV _)
      (batchRun_InvB d (raws.take i))).2

/-- Witness for C3: on a one-call batch the first update does not
divide by zero. -/
theorem centroid_norm_invariant_witness :
    0 < ([fun _ => 1] : List (V 1)).length
    ∧ ¬ assignDivZero (batchRun 1 (([fun _ => 1] : List (V 1)).take 0))
        (normalizeV (([fun _ => 1] : List (V 1)).get ⟨0, by simp⟩)) :=
  ⟨by simp,
   (centroid_norm_invariant 1 true [] [fun _ => 1]).2.2 0 (by simp)⟩

/-- Counterexample to claim C4 as stated: a merged run of duration
exactly `1.0` s is *discarded* by the merge stage (the source keeps a
run only when `curr_end - curr_start > 1.0` strictly), whereas the
claim says every run of duration `1.0` s or longer is kept. -/
theorem merge_one_second_run_discarded :
    mergeTimeline [((0 : ℚ), 1, 0)] = [] := by
  norm_num [mergeTimeline, mergeGo]

/-- Claim C4 (amended): consecutive same-speaker entries with gap
strictly below `2.0` s coalesce into one run (a gap of exactly `2.0` s
does not merge), and a resulting run is kept if and only if its
duration strictly exceeds `1.0` s — a run of exactly `1.0` s is
discarded. -/
theorem merge_rules (s1 e1 s2 e2 : ℚ) (k1 k2 : ℤ) :
    (k2 = k1 ∧ s2 - e1 < 2 →
      mergeTimeline [(s1, e1, k1), (s2, e2, k2)]
        = if 1 < max e1 e2 - s1 then [(s1, max e1 e2, k1)] else [])
    ∧ (¬ (k2 = k1 ∧ s2 - e1 < 2) →
      mergeTimeline [(s1, e1, k1), (s2, e2, k2)]
        = (if 1 < e1 - s1 then [(s1, e1, k1)] else [])
          ++ (if 1 < e2 - s2 then [(s2, e2, k2)] else []))
    ∧ mergeTimeline [(s1, e1, k1)] = (if 1 < e1 - s1 then [(s1, e1, k1)] else []) := by
  refine ⟨?_, ?_, ?_⟩
  · intro h
    show mergeGo s1 e1 k1 [(s2, e2, k2)] = _
    unfold mergeGo
    rw [if_pos h]
    rfl
  · intro h
    show mergeGo s1 e1 k1 [(s2, e2, k2)] = _
    unfold mergeGo
    rw [if_neg h]
    rfl
  · rfl

/-- Witness for the amended C4: two same-speaker runs with a gap of
exactly `2.0` s are *not* merged; the first (duration 2 s) is kept, the
second (duration 1 s) is dropped by the strict duration test. -/
theorem merge_rules_witness :
    ¬ ((0 : ℤ) = 0 ∧ (4 : ℚ) - 2 < 2)
    ∧ mergeTimeline [((0 : ℚ), 2, 0), ((4 : ℚ), 5, 0)]
        = (if (1 : ℚ) < 2 - 0 then [((0 : ℚ), 2, 0)] else [])
          ++ (if (1 : ℚ) < 5 - 4 then [((4 : ℚ), 5, 0)] else []) :=
  ⟨by norm_num, (merge_rules 0 2 4 5 0 0).2.1 (by norm_num)⟩

/-- Claim C8: if every scanned window of the (preprocessed) buffer has
mean-square energy below the `0.001` silence floor — which subsumes the
zero-length buffer and any buffer no longer than one 2.0 s window,
where no window is scanned at all — the diarize-first pipeline returns
the empty segment list.  (The model is a total function: no exception
is possible.) -/
theorem degenerate_batch_empty (d : ℕ) (oracle : List ℝ → Option (V d))
    (asr : List ℝ → String) (audio : List ℝ)
    (h : ∀ i ∈ scanIndices audio.length, meanSq (windowAt audio i) < 0.001) :
    pipelineOut d oracle asr audio = [] := by
  have hscan : (runScan d oracle audio).timeline = []
      ∧ (runScan d oracle audio).current_spk = -1 := by
    unfold runScan
    refine foldl_preserves
      (fun (st : ScanState d) => st.timeline = [] ∧ st.current_spk = -1)
      _ _ _ ⟨rfl, rfl⟩ ?_
    intro st hst i hi
    unfold scanStep
    rw [if_pos (h i hi), if_neg (fun hne => hne hst.2)]
    exact hst
  simp only [pipelineOut]
  rw [if_neg (fun hne => hne hscan.2), hscan.1]
  rfl

/-- Witness for C8: the zero-length buffer yields the empty segment
list (no window is scanned, so the hypothesis is vacuous). -/
theorem degenerate_batch_empty_witness :
    (∀ i ∈ scanIndices (List.length ([] : List ℝ)),
      meanSq (windowAt [] i) < 0.001)
    ∧ pipelineOut 1 (fun _ => none) (fun _ => "") [] = [] :=
  ⟨by intro i hi; simp [scanIndices] at hi,
   degenerate_batch_empty 1 (fun _ => none) (fun _ => "") []
     (by intro i hi; simp [scanIndices] at hi)⟩

/-- Claim C2 is a code bug: `calculate_rms` squares the int16 sample
array in int16 arithmetic, so the squares wrap modulo `2^16`.  On the
chunk of two constant samples `182` (bytes `b6 00 b6 00`), the wrapped
square is `-32412`, the mean is nonpositive, and the source returns
`0.0` — whereas the specified `sqrt(mean(sample^2))` over exact
integers is `182`. -/
theorem rms_int16_overflow :
    calculate_rms [182, 0, 182, 0] = 0
    ∧ rmsSpec (bytesToSamples [182, 0, 182, 0]) = 182 := by
  constructor
  · have hsamp : bytesToSamples [182, 0, 182, 0] = [182, 182] := by decide
    have hmean : meanSqWrapped [182, 0, 182, 0] = -32412 := by
      have hw : wrap16 (182 * 182) = -32412 := by decide
      simp only [meanSqWrapped]
      rw [hsamp, if_neg (List.cons_ne_nil 182 [182])]
      simp only [List.map_cons, List.map_nil, hw, List.sum_cons, List.sum_nil,
        List.length_cons, List.length_nil]
      norm_num
    unfold calculate_rms
    rw [hsamp, hmean]
    norm_num
  · have hsamp : bytesToSamples [182, 0, 182, 0] = [182, 182] := by decide
    rw [hsamp]
    unfold rmsSpec
    have : ((((([182, 182] : List ℤ).map fun s => s * s).sum : ℤ) : ℝ)
        / (([182, 182] : List ℤ).length : ℝ)) = (182 : ℝ) ^ 2 := by
      norm_num
    rw [this, Real.sqrt_sq (by norm_num : (0 : ℝ) ≤ 182)]

/-- Claim C7: on any chunk for which the post-append phrase duration
(bytes over `16000 × 2`) exceeds `MAX_PHRASE_DURATION = 20` s while the
time since the last trigger exceeds the `0.5` s cooldown and no
processing is in flight, a trigger fires on that very chunk —
regardless of the silence classification and of the silence-timer
state — the phrase buffer is trimmed to exactly the trailing `1.0` s
(32000 bytes) of the appended buffer, and `last_process` is updated to
`now` (with the processing guard set). -/
theorem forced_trigger_bounds_buffer (s : WSState) (chunk : List ℕ) (now : ℚ)
    (hdur : ((s.phrase_buffer.length + chunk.length : ℕ) : ℚ) / 32000 > 20)
    (hcool : now - s.last_process > 0.5)
    (hproc : s.is_processing = false) :
    (wsStep s chunk now).2 = true
    ∧ (wsStep s chunk now).1.phrase_buffer
        = (s.phrase_buffer ++ chunk).drop ((s.phrase_buffer ++ chunk).length - 32000)
    ∧ (wsStep s chunk now).1.phrase_buffer.length = 32000
    ∧ (wsStep s chunk now).1.last_process = now
    ∧ (wsStep s chunk now).1.is_processing = true := by
  have hlenq : (((s.phrase_buffer ++ chunk).length : ℕ) : ℚ) / 32000 > 20 := by
    rw [List.length_append]
    exact_mod_cast hdur
  have hlenN : 640000 < (s.phrase_buffer ++ chunk).length := by
    have h1 : (20 : ℚ) * 32000 < (((s.phrase_buffer ++ chunk).length : ℕ) : ℚ) :=
      (lt_div_iff₀ (by norm_num : (0 : ℚ) < 32000)).mp hlenq
    have h2 : (640000 : ℚ) < (((s.phrase_buffer ++ chunk).length : ℕ) : ℚ) := by
      calc (640000 : ℚ) = 20 * 32000 := by norm_num
        _ < _ := h1
    exact_mod_cast h2
  have htrim : 32000 < (s.phrase_buffer ++ chunk).length := by omega
  have hA : trimOverlap (s.phrase_buffer ++ chunk)
      = (s.phrase_buffer ++ chunk).drop ((s.phrase_buffer ++ chunk).length - 32000) := by
    unfold trimOverlap; rw [if_pos htrim]
  have hB : trimOverlapForce (s.phrase_buffer ++ chunk)
      = (s.phrase_buffer ++ chunk).drop ((s.phrase_buffer ++ chunk).length - 32000) := by
    unfold trimOverlapForce; rw [if_pos htrim]
  have hdrop : ((s.phrase_buffer ++ chunk).drop
      ((s.phrase_buffer ++ chunk).length - 32000)).length = 32000 := by
    rw [List.length_drop]; omega
  have hdropB : (trimOverlapForce (s.phrase_buffer ++ chunk)).length = 32000 := by
    rw [hB]; exact hdrop
  have hdropA2 : (trimOverlap (s.phrase_buffer ++ chunk)).length = 32000 := by
    rw [hA]; exact hdrop
  by_cases hsil : isSilentChunk chunk = true
  · cases hss : s.silence_start with
    | none =>
      simp only [wsStep, hss, hsil, eq_self_iff_true, if_true]
      rw [if_pos ⟨hlenq, hcool, hproc⟩]
      exact ⟨rfl, hB, hdropB, rfl, rfl⟩
    | some t0 =>
      by_cases htc : now - t0 > 2
          ∧ (((s.phrase_buffer ++ chunk).length : ℕ) : ℚ) / 32000 > 2
          ∧ now - s.last_process > 0.5 ∧ s.is_processing = false
      · simp only [wsStep, hss, hsil, eq_self_iff_true, if_true]
        rw [if_pos htc]
        rw [if_neg (fun hcon => by simpa using hcon.2.2)]
        exact ⟨rfl, hA, hdropA2, rfl, rfl⟩
      · simp only [wsStep, hss, hsil, eq_self_iff_true, if_true]
        rw [if_neg htc]
        rw [if_pos ⟨hlenq, hcool, hproc⟩]
        exact ⟨rfl, hB, hdropB, rfl, rfl⟩
  · simp only [wsStep, hsil, Bool.false_eq_true, if_false]
    rw [if_pos ⟨hlenq, hcool, hproc⟩]
    exact ⟨rfl, hB, hdropB, rfl, rfl⟩

/-- The concrete session state of the C7 witness: 650000 buffered
bytes (about 20.3 s), idle, cooldown long expired. -/
def wsWitState : WSState := ⟨[], List.replicate 650000 0, none, 0, false⟩

/-- Witness for C7: that session force-triggers on an empty chunk. -/
theorem forced_trigger_bounds_buffer_witness :
    (((wsWitState.phrase_buffer.length + ([] : List ℕ).length : ℕ) : ℚ) / 32000 > 20)
    ∧ ((1 : ℚ) - wsWitState.last_process > 0.5)
    ∧ wsWitState.is_processing = false
    ∧ (wsStep wsWitState [] 1).2 = true
    ∧ (wsStep wsWitState [] 1).1.is_processing = true := by
  have hlen : wsWitState.phrase_buffer.length = 650000 := by
    have hpb : wsWitState.phrase_buffer = List.replicate 650000 0 := rfl
    rw [hpb, List.length_replicate]
  have h1 : ((wsWitState.phrase_buffer.length + ([] : List ℕ).length : ℕ) : ℚ)
      / 32000 > 20 := by
    rw [List.length_nil, hlen]
    norm_num
  have h2 : (1 : ℚ) - wsWitState.last_process > 0.5 := by
    have hlp : wsWitState.last_process = 0 := rfl
    rw [hlp]
    norm_num
  have h := forced_trigger_bounds_buffer wsWitState [] 1 h1 h2 rfl
  exact ⟨h1, h2, rfl, h.1, h.2.2.2.2⟩

/-- Claim C10: frame property of `identify` on a valid call.  An
accepted match rewrites exactly the entry whose key is the selected
best id — replacing it by its `emaUpdate` (new centroid, incremented
count, refreshed `last_seen`) — and leaves every other entry and
`next_id` unchanged; a rejected match appends one new entry, leaves
every pre-existing entry unchanged, and increments `next_id` by
exactly 1. -/
theorem identify_frame (d : ℕ) (s : SMState d) (raw : V d) (nSamples : ℕ)
    (now : ℝ) (hl : s.loaded = true) (hn : 8000 ≤ nSamples) :
    ((bestPair s now (normalizeV raw)).1 > s.threshold →
      (identify s nSamples (some raw) now).2.next_id = s.next_id
      ∧ (identify s nSamples (some raw) now).2.registry.length = s.registry.length
      ∧ ∀ (j : ℕ) (p : ℕ × RegEntry d), s.registry[j]? = some p →
          ((¬ ((p.1 : ℤ) = (bestPair s now (normalizeV raw)).2) →
             (identify s nSamples (some raw) now).2.registry[j]? = some p)
           ∧ ((p.1 : ℤ) = (bestPair s now (normalizeV raw)).2 →
             (identify s nSamples (some raw) now).2.registry[j]?
               = some (p.1, emaUpdate (normalizeV raw) now p.2))))
    ∧ (¬ (bestPair s now (normalizeV raw)).1 > s.threshold →
      (identify s nSamples (some raw) now).2.next_id = s.next_id + 1
      ∧ (∀ (j : ℕ) (p : ℕ × RegEntry d), s.registry[j]? = some p →
           (identify s nSamples (some raw) now).2.registry[j]? = some p)
      ∧ (identify s nSamples (some raw) now).2.registry[s.registry.length]?
          = some (s.next_id, ⟨normalizeV raw, 1, now⟩)) := by
  rw [identify_valid_eq s nSamples raw now hl hn]
  constructor
  · intro hacc
    rw [if_pos hacc]
    refine ⟨rfl, ?_, ?_⟩
    · show (updateKey s.registry (bestPair s now (normalizeV raw)).2
        (emaUpdate (normalizeV raw) now)).length = s.registry.length
      unfold updateKey
      exact List.length_map _ _
    · intro j p hp
      constructor
      · intro hne
        show (updateKey s.registry (bestPair s now (normalizeV raw)).2
          (emaUpdate (normalizeV raw) now))[j]? = some p
        unfold updateKey
        rw [List.getElem?_map, hp]
        simp only [Option.map_some']
        rw [if_neg hne]
      · intro heq
        show (updateKey s.registry (bestPair s now (normalizeV raw)).2
          (emaUpdate (normalizeV raw) now))[j]?
            = some (p.1, emaUpdate (normalizeV raw) now p.2)
        unfold updateKey
        rw [List.getElem?_map, hp]
        simp only [Option.map_some']
        rw [if_pos heq]
  · intro hacc
    rw [if_neg hacc]
    refine ⟨rfl, ?_, ?_⟩
    · intro j p hp
      have hj : j < s.registry.length := by
        by_contra hge
        rw [List.getElem?_eq_none (le_of_not_lt hge)] at hp
        cases hp
      show (s.registry ++ [(s.next_id, ⟨normalizeV raw, 1, now⟩)])[j]? = some p
      rw [List.getElem?_append_left hj]
      exact hp
    · show (s.registry ++ [(s.next_id, ⟨normalizeV raw, 1, now⟩)])[s.registry.length]?
        = some (s.next_id, ⟨normalizeV raw, 1, now⟩)
      rw [List.getElem?_append_right (le_refl _)]
      simp

/-- Witness for C10: a first call on a fresh manager rejects (empty
registry), appends the new speaker at key 0, and bumps `next_id` to 1. -/
theorem identify_frame_witness :
    ¬ (bestPair (initSM 1 true) 0 (normalizeV fun _ => 1)).1 > (initSM 1 true).threshold
    ∧ (identify (initSM 1 true) 8000 (some fun _ => 1) 0).2.next_id
        = (initSM 1 true).next_id + 1
    ∧ (identify (initSM 1 true) 8000 (some fun _ => 1) 0).2.registry[(0 : ℕ)]?
        = some ((initSM 1 true).next_id, ⟨normalizeV fun _ => 1, 1, 0⟩) := by
  have hrej : ¬ (bestPair (initSM 1 true) 0 (normalizeV fun _ => 1)).1
      > (initSM 1 true).threshold := by
    have hbp : bestPair (initSM 1 true) 0 (normalizeV fun _ => 1) = (-1, -1) := rfl
    rw [hbp]
    norm_num [initSM]
  have h := (identify_frame 1 (initSM 1 true) (fun _ => 1) 8000 0 rfl
    (by norm_num)).2 hrej
  exact ⟨hrej, h.1, h.2.2⟩

/-- Claim C6: on a valid call, the match is accepted iff the maximum
post-bias score strictly exceeds the threshold.  On acceptance the
winning entry is the *earliest* entry attaining that maximum (strict
`>` tie-break: the first-registered entry wins), its key names the
returned label and it receives the EMA update while `next_id` stays
put; otherwise a new entry with key `next_id` (then incremented) and
centroid the normalised embedding is appended.  `-1 ≤ threshold`
covers every meaningful threshold, including the default `0.45`. -/
theorem clustering_decision_rule (d : ℕ) (s : SMState d) (raw : V d)
    (nSamples : ℕ) (now : ℝ) (hl : s.loaded = true) (hn : 8000 ≤ nSamples)
    (hthr : (-1 : ℝ) ≤ s.threshold) :
    (s.registry.foldl
        (fun m p => max m (scoreOf s now (normalizeV raw) p)) (-1) > s.threshold →
      ∃ i, ∃ hi : i < s.registry.length,
        scoreOf s now (normalizeV raw) (s.registry.get ⟨i, hi⟩)
          = s.registry.foldl
              (fun m p => max m (scoreOf s now (normalizeV raw) p)) (-1)
        ∧ (∀ j, (hj : j < s.registry.length) → j < i →
            scoreOf s now (normalizeV raw) (s.registry.get ⟨j, hj⟩)
              < scoreOf s now (normalizeV raw) (s.registry.get ⟨i, hi⟩))
        ∧ (identify s nSamples (some raw) now).1
            = some (speakerLabel (s.registry.get ⟨i, hi⟩).1)
        ∧ (identify s nSamples (some raw) now).2.registry
            = updateKey s.registry ((s.registry.get ⟨i, hi⟩).1 : ℤ)
                (emaUpdate (normalizeV raw) now)
        ∧ (identify s nSamples (some raw) now).2.next_id = s.next_id)
    ∧ (¬ s.registry.foldl
          (fun m p => max m (scoreOf s now (normalizeV raw) p)) (-1) > s.threshold →
      (identify s nSamples (some raw) now).1 = some (speakerLabel s.next_id)
      ∧ (identify s nSamples (some raw) now).2.registry
          = s.registry ++ [(s.next_id, ⟨normalizeV raw, 1, now⟩)]
      ∧ (identify s nSamples (some raw) now).2.next_id = s.next_id + 1) := by
  have hfst : (bestPair s now (normalizeV raw)).1
      = s.registry.foldl (fun m p => max m (scoreOf s now (normalizeV raw) p)) (-1) :=
    selectBest_fst _ _ _
  constructor
  · intro hM
    have hbp1 : (bestPair s now (normalizeV raw)).1 > s.threshold := by
      rw [hfst]; exact hM
    rcases selectBest_spec (scoreOf s now (normalizeV raw))
        (fun p => ((p.1 : ℕ) : ℤ)) s.registry with ⟨heq, _⟩ | ⟨i, hi, heq, _, hfirst⟩
    · exfalso
      have h1 : (bestPair s now (normalizeV raw)).1 = -1 := by
        show (selectBest (scoreOf s now (normalizeV raw))
          (fun p => ((p.1 : ℕ) : ℤ)) s.registry).1 = -1
        rw [heq]
      rw [h1] at hbp1
      linarith
    · have hbpeq : bestPair s now (normalizeV raw)
          = (scoreOf s now (normalizeV raw) (s.registry.get ⟨i, hi⟩),
             ((s.registry.get ⟨i, hi⟩).1 : ℤ)) := heq
      refine ⟨i, hi, ?_, ?_, ?_, ?_, ?_⟩
      · rw [← hfst, hbpeq]
      · exact hfirst
      · rw [identify_valid_eq s nSamples raw now hl hn, if_pos hbp1]
        show some (speakerLabel (bestPair s now (normalizeV raw)).2.toNat)
          = some (speakerLabel (s.registry.get ⟨i, hi⟩).1)
        rw [hbpeq]
        show some (speakerLabel ((((s.registry.get ⟨i, hi⟩).1 : ℕ) : ℤ)).toNat)
          = some (speakerLabel (s.registry.get ⟨i, hi⟩).1)
        rw [Int.toNat_natCast]
      · rw [identify_valid_eq s nSamples raw now hl hn, if_pos hbp1]
        show updateKey s.registry (bestPair s now (normalizeV raw)).2
            (emaUpdate (normalizeV raw) now)
          = updateKey s.registry ((s.registry.get ⟨i, hi⟩).1 : ℤ)
              (emaUpdate (normalizeV raw) now)
        rw [hbpeq]
      · rw [identify_valid_eq s nSamples raw now hl hn, if_pos hbp1]
  · intro hM
    have hbp1 : ¬ (bestPair s now (normalizeV raw)).1 > s.threshold := by
      rw [hfst]; exact hM
    rw [identify_valid_eq s nSamples raw now hl hn, if_neg hbp1]
    exact ⟨rfl, rfl, rfl⟩

/-- Witness for C6: on a fresh manager the maximum over the empty
registry is `-1`, which does not exceed the threshold `0.45`, so the
call allocates `next_id = 0` and returns its label. -/
theorem clustering_decision_rule_witness :
    ¬ (initSM 1 true).registry.foldl
        (fun m p => max m (scoreOf (initSM 1 true) 0 (normalizeV fun _ => 1) p)) (-1)
      > (initSM 1 true).threshold
    ∧ (identify (initSM 1 true) 8000 (some fun _ => 1) 0).1
        = some (speakerLabel (initSM 1 true).next_id) := by
  have hM : ¬ (initSM 1 true).registry.foldl
      (fun m p => max m (scoreOf (initSM 1 true) 0 (normalizeV fun _ => 1) p)) (-1)
      > (initSM 1 true).threshold := by
    show ¬ (-1 : ℝ) > (initSM 1 true).threshold
    norm_num [initSM]
  have h := (clustering_decision_rule 1 (initSM 1 true) (fun _ => 1) 8000 0 rfl
    (by norm_num) (by norm_num [initSM])).2 hM
  exact ⟨hM, h.1⟩

/-- `selectBest` on a one-entry registry. -/
theorem selectBest_singleton {α : Type} (f : α → ℝ) (g : α → ℤ) (x : α) :
    selectBest f g [x] = if f x > -1 then (f x, g x) else (-1, -1) := rfl

/-- Speaker A of the spec's Scenario C: the registered embedding `[1, 0]`. -/
noncomputable def embA : V 2 := fun i => if i = 0 then 1 else 0

/-- The probe embedding of Scenario C: `[0.4, sqrt 0.84]`, a unit
vector whose cosine similarity to `embA` is exactly `0.40`. -/
noncomputable def embB : V 2 := fun i => if i = 0 then 0.4 else Real.sqrt 0.84

/-- The manager state after registering speaker A at `t = 1000`. -/
noncomputable def smAfterA : SMState 2 :=
  (identify (initSM 2 true) 16000 (some embA) 1000).2

/-- Claim C1 evaluated on the code: the source *never writes*
`last_speaker_id` / `last_speaker_time` (they keep their `__init__`
values `-1` / `0`), so the `+0.1` temporal bonus is unreachable (all
registry keys are nonnegative).  Registering A (`[1,0]`, labelled
`SPEAKER_00`) at `t = 1000` and presenting `embB` (raw cosine `0.40`
to A) at `t = 1000.5` — inside the claimed 3-second bias window —
allocates a *new* speaker `SPEAKER_01` instead of returning A. -/
theorem temporal_bias_never_recorded :
    (identify smAfterA 16000 (some embB) 1000.5).1 = some "SPEAKER_01"
    ∧ smAfterA.last_speaker_id = -1
    ∧ smAfterA.last_speaker_time = 0
    ∧ (identify (initSM 2 true) 16000 (some embA) 1000).1 = some "SPEAKER_00"
    ∧ dotV embB embA = 0.4 := by
  have hA0 : embA 0 = 1 := by
    rw [embA]
    rw [if_pos rfl]
  have hA1 : embA 1 = 0 := by
    rw [embA]
    rw [if_neg (by decide : ¬ (1 : Fin 2) = 0)]
  have hB0 : embB 0 = 0.4 := by
    rw [embB]
    rw [if_pos rfl]
  have hB1 : embB 1 = Real.sqrt 0.84 := by
    rw [embB]
    rw [if_neg (by decide : ¬ (1 : Fin 2) = 0)]
  have hdotAA : dotV embA embA = 1 := by
    unfold dotV
    rw [Fin.sum_univ_two, hA0, hA1]
    norm_num
  have hdotBB : dotV embB embB = 1 := by
    unfold dotV
    rw [Fin.sum_univ_two, hB0, hB1,
      Real.mul_self_sqrt (by norm_num : (0 : ℝ) ≤ 0.84)]
    norm_num
  have hdotBA : dotV embB embA = 0.4 := by
    unfold dotV
    rw [Fin.sum_univ_two, hB0, hB1, hA0, hA1]
    ring
  have hnormA : normV embA = 1 := by
    unfold normV
    rw [hdotAA, Real.sqrt_one]
  have hnormB : normV embB = 1 := by
    unfold normV
    rw [hdotBB, Real.sqrt_one]
  have hnzA : normalizeV embA = embA := by
    unfold normalizeV
    rw [if_pos (by rw [hnormA]; norm_num)]
    funext i
    rw [hnormA, div_one]
  have hnzB : normalizeV embB = embB := by
    unfold normalizeV
    rw [if_pos (by rw [hnormB]; norm_num)]
    funext i
    rw [hnormB, div_one]
  have hrej1 : ¬ (bestPair (initSM 2 true) 1000 (normalizeV embA)).1
      > (initSM 2 true).threshold := by
    have hbp : bestPair (initSM 2 true) 1000 (normalizeV embA) = (-1, -1) := rfl
    rw [hbp]
    norm_num [initSM]
  have hlabel1 : (identify (initSM 2 true) 16000 (some embA) 1000).1
      = some "SPEAKER_00" := by
    rw [identify_valid_eq (initSM 2 true) 16000 embA 1000 rfl (by norm_num),
      if_neg hrej1]
    show some (speakerLabel (initSM 2 true).next_id) = some "SPEAKER_00"
    have hid : (initSM 2 true).next_id = 0 := rfl
    rw [hid]
    rfl
  have hreg : smAfterA.registry = [(0, ⟨embA, 1, 1000⟩)] := by
    show ((identify (initSM 2 true) 16000 (some embA) 1000).2).registry = _
    rw [identify_valid_eq (initSM 2 true) 16000 embA 1000 rfl (by norm_num),
      if_neg hrej1]
    show (initSM 2 true).registry
      ++ [((initSM 2 true).next_id, ⟨normalizeV embA, 1, 1000⟩)] = _
    rw [hnzA]
    rfl
  have hload : smAfterA.loaded = true := by
    show ((identify (initSM 2 true) 16000 (some embA) 1000).2).loaded = true
    rw [identify_valid_eq (initSM 2 true) 16000 embA 1000 rfl (by norm_num),
      if_neg hrej1]
    rfl
  have hlsid : smAfterA.last_speaker_id = -1 := by
    show ((identify (initSM 2 true) 16000 (some embA) 1000).2).last_speaker_id = -1
    rw [identify_valid_eq (initSM 2 true) 16000 embA 1000 rfl (by norm_num),
      if_neg hrej1]
    rfl
  have hlst : smAfterA.last_speaker_time = 0 := by
    show ((identify (initSM 2 true) 16000 (some embA) 1000).2).last_speaker_time = 0
    rw [identify_valid_eq (initSM 2 true) 16000 embA 1000 rfl (by norm_num),
      if_neg hrej1]
    rfl
  have hnid : smAfterA.next_id = 1 := by
    show ((identify (initSM 2 true) 16000 (some embA) 1000).2).next_id = 1
    rw [identify_valid_eq (initSM 2 true) 16000 embA 1000 rfl (by norm_num),
      if_neg hrej1]
    rfl
  have hthr1 : smAfterA.threshold = 0.45 := by
    show ((identify (initSM 2 true) 16000 (some embA) 1000).2).threshold = 0.45
    rw [identify_valid_eq (initSM 2 true) 16000 embA 1000 rfl (by norm_num),
      if_neg hrej1]
    rfl
  have hscore : scoreOf smAfterA 1000.5 embB
      ((0 : ℕ), (⟨embA, 1, 1000⟩ : RegEntry 2)) = 0.4 := by
    unfold scoreOf
    rw [hlsid]
    rw [if_neg (fun hcon => absurd hcon.1 (by norm_num))]
    show dotV embB embA + 0 = 0.4
    rw [hdotBA, add_zero]
  have hbp2 : bestPair smAfterA 1000.5 (normalizeV embB) = (0.4, 0) := by
    rw [hnzB]
    unfold bestPair
    rw [hreg, selectBest_singleton, hscore]
    rw [if_pos (by norm_num : (0.4 : ℝ) > -1)]
    norm_num
  have hrej2 : ¬ (bestPair smAfterA 1000.5 (normalizeV embB)).1
      > smAfterA.threshold := by
    rw [hbp2, hthr1]
    norm_num
  refine ⟨?_, hlsid, hlst, hlabel1, hdotBA⟩
  rw [identify_valid_eq smAfterA 16000 embB 1000.5 hload (by norm_num),
    if_neg hrej2]
  show some (speakerLabel smAfterA.next_id) = some "SPEAKER_01"
  rw [hnid]
  rfl
